import Mathlib

/-!
Verification of the MCP toll-server repository: a shallow embedding of
`src/server.py` (the tool server: toll calculator, Databricks SQL bridge with
its polling loop, Snowflake SQL bridge) and of the command-classification part
of `src/streamlit_client.py` (the chat front-end), together with theorems
establishing or refuting behavioural properties of those components.

Conventions of the embedding:
- Python strings are `String` / `List Char`; cell values are `Value`
  (string, rational number, or null); Python `float` is idealised as `ℚ`.
- `os.getenv` is a function `String → Option String`; Python truthiness of an
  optional string is `strFalsy`.
- The remote engines are oracles: the Databricks statement handle is a
  sequence of status strings (one per refresh) plus its error detail, result
  data and schema; the Snowflake cursor is the outcome of executing a query.
- The polling loop is fuel-indexed (`none` = still running after `fuel`
  refreshes); raising an exception is `Except.error`.
- Python `dict(zip(columns, row))` is `dictZip`: an insertion-ordered
  association list where assigning to an existing key overwrites its value in
  place and a new key is appended.
-/

/-! ## Character classes (ASCII fragment of Python `str` and `re` semantics) -/

/-- Python `str.lower` on the ASCII range (`src/streamlit_client.py` line 85
lowercases each command before matching). -/
def pyLower (c : Char) : Char :=
  match c with
  | 'A' => 'a' | 'B' => 'b' | 'C' => 'c' | 'D' => 'd' | 'E' => 'e'
  | 'F' => 'f' | 'G' => 'g' | 'H' => 'h' | 'I' => 'i' | 'J' => 'j'
  | 'K' => 'k' | 'L' => 'l' | 'M' => 'm' | 'N' => 'n' | 'O' => 'o'
  | 'P' => 'p' | 'Q' => 'q' | 'R' => 'r' | 'S' => 's' | 'T' => 't'
  | 'U' => 'u' | 'V' => 'v' | 'W' => 'w' | 'X' => 'x' | 'Y' => 'y'
  | 'Z' => 'z'
  | _ => c

/-- Python whitespace (`\s`, `str.strip`), ASCII fragment. -/
def pySpace (c : Char) : Bool :=
  c == ' ' || c == '\t' || c == '\n' || c == '\r' ||
    c == Char.ofNat 11 || c == Char.ofNat 12

/-- Python `\d`. -/
def pyDigit (c : Char) : Bool :=
  decide ('0' ≤ c) && decide (c ≤ '9')

/-- Python `\w`, ASCII fragment (alphanumeric or underscore). -/
def pyWordCh (c : Char) : Bool :=
  (decide ('a' ≤ c) && decide (c ≤ 'z')) ||
    (decide ('A' ≤ c) && decide (c ≤ 'Z')) ||
    (decide ('0' ≤ c) && decide (c ≤ '9')) || c == '_'

/-- Python `str.strip`: drop leading and trailing whitespace. -/
def stripWs (l : List Char) : List Char :=
  ((l.dropWhile pySpace).reverse.dropWhile pySpace).reverse

/-- `startsWithL pat s` : the pattern is a prefix of `s`. -/
def startsWithL : List Char → List Char → Bool
  | [], _ => true
  | _ :: _, [] => false
  | p :: ps, c :: cs => p == c && startsWithL ps cs

/-- Python substring test `pat in s`. -/
def hasSub (pat : List Char) : List Char → Bool
  | [] => startsWithL pat []
  | c :: cs => startsWithL pat (c :: cs) || hasSub pat cs

/-- Strip an exact literal from the front; `none` when it does not match. -/
def dropLit : List Char → List Char → Option (List Char)
  | [], s => some s
  | _ :: _, [] => none
  | p :: ps, c :: cs => if p = c then dropLit ps cs else none

/-- Leftmost-position search: `re.search` tries every start position from the
left and returns the first where the pattern matcher succeeds. -/
def searchWith (m : List Char → Option (List Char)) : List Char → Option (List Char)
  | [] => m []
  | c :: cs =>
    match m (c :: cs) with
    | some r => some r
    | none => searchWith m cs

/-! ## The three toll-parameter regexes of `process_command`
(`src/streamlit_client.py` lines 91-93) and the direct-SQL regex (line 105).
Each matcher decides whether its pattern matches at the present position and
returns capture group 1.  For these particular patterns greedy matching needs
no backtracking (each repeated class is disjoint from what follows), except in
`matchRunSqlAt` where `\s+(.+)` can be forced to split a whitespace run. -/

/-- Numeric token `\d+\.?\d*`: returns (group text, rest). -/
def numTokenAt (l : List Char) : Option (List Char × List Char) :=
  let d1 := l.takeWhile pyDigit
  if d1.isEmpty then none
  else
    match l.dropWhile pyDigit with
    | '.' :: r2 => some (d1 ++ '.' :: r2.takeWhile pyDigit, r2.dropWhile pyDigit)
    | r1 => some (d1, r1)

def forLit : List Char := [ 'f', 'o', 'r']

def milesLit : List Char := [ 'm', 'i', 'l', 'e', 's']

def mileLit : List Char := [ 'm', 'i', 'l', 'e']

/-- `for\s+(\w+)` at the current position (vehicle type). -/
def matchVehicleAt (l : List Char) : Option (List Char) :=
  match dropLit forLit l with
  | none => none
  | some rest =>
    if (rest.takeWhile pySpace).isEmpty then none
    else
      let w := (rest.dropWhile pySpace).takeWhile pyWordCh
      if w.isEmpty then none else some w

/-- `(\d+\.?\d*)\s+miles` at the current position (distance). -/
def matchDistanceAt (l : List Char) : Option (List Char) :=
  match numTokenAt l with
  | none => none
  | some (tok, r) =>
    if (r.takeWhile pySpace).isEmpty then none
    else if startsWithL milesLit (r.dropWhile pySpace) then some tok else none

/-- `\$?(\d+\.?\d*)\s*/?\s*mile` at the current position (toll rate).
Note the slash is optional, so this also matches inside "12 miles". -/
def matchRateAt (l : List Char) : Option (List Char) :=
  let l1 := match l with | '$' :: t => t | _ => l
  match numTokenAt l1 with
  | none => none
  | some (tok, r) =>
    let r2 := r.dropWhile pySpace
    let r3 := match r2 with | '/' :: t => t | _ => r2
    if startsWithL mileLit (r3.dropWhile pySpace) then some tok else none

def secretLit : List Char := [ 's', 'e', 'c', 'r', 'e', 't', ' ', 'w', 'o', 'r', 'd']

def tollLit : List Char :=
  [ 'c', 'a', 'l', 'c', 'u', 'l', 'a', 't', 'e', ' ', 't', 'o', 'l', 'l']

def runSqlLit : List Char :=
  [ 'r', 'u', 'n', ' ', 's', 'q', 'l', ' ', 'q', 'u', 'e', 'r', 'y']

/-- Backtracking tail of `run sql query\s+(.+)` when the maximal whitespace
run after the literal reaches the end of the text: `\s+` gives characters
back one at a time (keeping at least one), and `.+` must then start with a
non-newline character.  The group is that single character (everything after
it is a newline or the end). -/
def lastNonNl : List Char → Option Char
  | [] => none
  | c :: cs =>
    match lastNonNl cs with
    | some d => some d
    | none => if c == '\n' then none else some c

def backtrackWs (ws : List Char) : Option (List Char) :=
  match ws with
  | [] => none
  | _ :: rest => (lastNonNl rest).map (fun c => [c])

/-- `run sql query\s+(.+)` at the current position. `.` does not match a
newline; `\s+` and `.+` are greedy. -/
def matchRunSqlAt (l : List Char) : Option (List Char) :=
  match dropLit runSqlLit l with
  | none => none
  | some t =>
    let ws := t.takeWhile pySpace
    let rest := t.dropWhile pySpace
    if ws = [] then none
    else if rest = [] then backtrackWs ws
    else some (rest.takeWhile (fun c => !(c == '\n')))

/-! ## Numeric parsing (`float` applied to a `\d+\.?\d*` group) -/

def digitsToNat (l : List Char) : ℕ :=
  l.foldl (fun a c => 10 * a + (c.toNat - 48)) 0

/-- `float` on a string matching `\d+\.?\d*`, idealised in `ℚ`. -/
def parseNumQ (l : List Char) : ℚ :=
  let ip := l.takeWhile pyDigit
  let fp := match l.dropWhile pyDigit with | '.' :: t => t | _ => []
  (digitsToNat ip : ℚ) + (digitsToNat fp : ℚ) / (10 : ℚ) ^ fp.length

/-! ## The command interpreter (`process_command`, client lines 83-124) -/

/-- Vehicle type: group of `for\s+(\w+)`, default "car". -/
def tollVehicle (cmd : List Char) : List Char :=
  (searchWith matchVehicleAt cmd).getD [ 'c', 'a', 'r']

/-- Distance: group of `(\d+\.?\d*)\s+miles` as a float, default 10.0. -/
def tollDistance (cmd : List Char) : ℚ :=
  match searchWith matchDistanceAt cmd with
  | some t => parseNumQ t
  | none => 10

/-- Toll rate: group of `\$?(\d+\.?\d*)\s*/?\s*mile` as a float, default 0.25. -/
def tollRate (cmd : List Char) : ℚ :=
  match searchWith matchRateAt cmd with
  | some t => parseNumQ t
  | none => 1 / 4

/-- The four terminal outcomes of one chat command.  `genSQL` carries the text
returned by the external natural-language translator; `missingQuery` is the
"Please provide a SQL query" reply. -/
inductive Outcome where
  | secretWord : Outcome
  | callToll (vehicle : List Char) (distance rate : ℚ) : Outcome
  | directSQL (query : List Char) : Outcome
  | missingQuery : Outcome
  | genSQL (query : List Char) : Outcome
  deriving DecidableEq

/-- `process_command` from the client: lowercase and strip the input, then
test the four rules in order, first match winning.  `tr` is the external
natural-language-to-SQL translator (an oracle). -/
def process_command (tr : List Char → List Char) (input : List Char) : Outcome :=
  let command := stripWs (input.map pyLower)
  if hasSub secretLit command then Outcome.secretWord
  else if hasSub tollLit command then
    Outcome.callToll (tollVehicle command) (tollDistance command) (tollRate command)
  else if hasSub runSqlLit command then
    match searchWith matchRunSqlAt command with
    | none => Outcome.missingQuery
    | some g => Outcome.directSQL (stripWs g)
  else Outcome.genSQL (tr command)

/-- Modelled from the spec: the text following the first occurrence of
"run sql query" that is immediately followed by a whitespace character and at
least one further character.  Used to state the corrected direct-SQL rule
extensionally. -/
def firstRunSqlTail : List Char → Option (List Char)
  | [] => none
  | c :: cs =>
    match dropLit runSqlLit (c :: cs) with
    | some (w :: x :: t) =>
      if pySpace w then some (w :: x :: t) else firstRunSqlTail cs
    | _ => firstRunSqlTail cs

/-! ## Server side (`src/server.py`) -/

/-- A loosely typed result cell (string, number, or null). -/
inductive Value where
  | str (v : String) : Value
  | num (v : ℚ) : Value
  | null : Value
  deriving DecidableEq

/-- One Python `dict` assignment `d[k] = v` on an insertion-ordered
association list with unique keys: an existing key keeps its position and gets
the new value, a new key is appended at the end. -/
def insertKV : List (String × Value) → String → Value → List (String × Value)
  | [], k, v => [(k, v)]
  | p :: m, k, v => if p.1 = k then (p.1, v) :: m else p :: insertKV m k v

/-- Python `dict(zip(columns, row))`: `zip` truncates to the shorter list,
`dict` inserts the pairs left to right. -/
def dictZip (columns : List String) (row : List Value) : List (String × Value) :=
  (List.zip columns row).foldl (fun m p => insertKV m p.1 p.2) []

/-- Python `d.get(k)`-style lookup in an association list. -/
def lookupKV (k : String) : List (String × Value) → Option Value
  | [] => none
  | p :: m => if p.1 = k then some p.2 else lookupKV k m

/-- Python truthiness of `os.getenv(...)`: falsy when unset or empty. -/
def strFalsy : Option String → Bool
  | none => true
  | some s => s == ""

/-! ### `calculate_toll` (server lines 23-27) -/

/-- Python `str.lower`, ASCII fragment. -/
def pyLowerStr (s : String) : String :=
  ⟨s.data.map pyLower⟩

/-- Python `dict.get(key, default)` over a literal dictionary. -/
def dictGetD : List (String × ℚ) → String → ℚ → ℚ
  | [], _, d => d
  | p :: m, k, d => if k = p.1 then p.2 else dictGetD m k d

/-- The multiplier table `rates` of `calculate_toll`. -/
def rates : List (String × ℚ) :=
  [("car", 1), ("truck", 3 / 2), ("motorcycle", 4 / 5)]

/-- Round half to even (Python 3 `round` tie-breaking), on an exact rational. -/
def roundHalfEvenZ (q : ℚ) : ℤ :=
  let f : ℤ := ⌊q⌋
  if q - f < 1 / 2 then f
  else if 1 / 2 < q - f then f + 1
  else if f % 2 = 0 then f else f + 1

/-- Python `round(x, 2)`, idealised on `ℚ`. -/
def pyRound2 (q : ℚ) : ℚ :=
  (roundHalfEvenZ (q * 100) : ℚ) / 100

/-- `calculate_toll` (server lines 23-27):
`round(distance * toll_rate * rates.get(vehicle_type.lower(), 1.0), 2)`. -/
def calculate_toll (vehicle_type : String) (distance : ℚ) (toll_rate : ℚ) : ℚ :=
  pyRound2 (distance * toll_rate * dictGetD rates (pyLowerStr vehicle_type) 1)

/-! ### Result translation -/

/-- The row translation of `run_query_sync` (server lines 95-100):
`[dict(zip(columns, row)) for row in rows] if columns else []`.  The `columns`
argument is `[desc[0] for desc in cur.description] if cur.description else []`,
so an absent cursor description arrives here as the empty list. -/
def run_query_sync (columns : List String) (rows : List (List Value)) :
    List (List (String × Value)) :=
  if columns ≠ [] then rows.map (fun row => dictZip columns row) else []

/-- The row translation of `run_sql_query` (server lines 55-58):
`if results and statement.result.schema: return [dict(zip(columns, row)) for
row in results]` with `columns = [field.name for field in schema.fields]`,
`else return []`.  The condition tests the truthiness of the schema object
(`none` here), not the emptiness of its field list. -/
def dbTranslate : Option (List String) → List (List Value) → List (List (String × Value))
  | some cols, r :: rs => (r :: rs).map (fun row => dictZip cols row)
  | _, _ => []

/-! ### The polling loop of `run_sql_query` (server lines 45-51) -/

/-- `state in ["PENDING", "RUNNING"]`. -/
def pollActive (s : String) : Bool :=
  s == "PENDING" || s == "RUNNING"

/-- The `while` loop of `poll_results`, fuel-indexed: `st i` is the handle's
status string after `i` refreshes (`st 0` the status returned by
`execute_statement`).  Returns the index of the first non-active status
reached within `fuel` refreshes, `none` if the loop is still running. -/
def pollFind (st : ℕ → String) : ℕ → ℕ → Option ℕ
  | 0, i => if pollActive (st i) then none else some i
  | fuel + 1, i => if pollActive (st i) then pollFind st fuel (i + 1) else some i

/-- The sleeps performed by the loop (`await asyncio.sleep(2)` before every
refresh), as a list of durations in seconds, truncated at `fuel` refreshes. -/
def pollWaits (st : ℕ → String) : ℕ → ℕ → List ℕ
  | 0, _ => []
  | fuel + 1, i => if pollActive (st i) then 2 :: pollWaits st fuel (i + 1) else []

/-- The Databricks statement handle as seen by the poller: status after each
refresh, the error detail shown on failure, `result.data_array` (possibly
absent) and `result.schema` (possibly absent, else its field names). -/
structure DbOracle where
  states : ℕ → String
  errorDetail : String
  data : Option (List (List Value))
  schema : Option (List String)

/-- `poll_results` (server lines 45-51): loop while PENDING/RUNNING, then
raise `RuntimeError("Query failed: ...")` unless the state is SUCCEEDED, else
return `statement.result.data_array or []`. -/
def poll_results (o : DbOracle) (fuel : ℕ) : Option (Except String (List (List Value))) :=
  match pollFind o.states fuel 0 with
  | none => none
  | some n =>
    if o.states n = "SUCCEEDED" then some (Except.ok (o.data.getD []))
    else some (Except.error ("Query failed: " ++ o.errorDetail))

def dbWarehouseVar : String := "DATABRICKS_SQL_WAREHOUSE_ID"

def dbCfgErrMsg : String := "SQL query failed: DATABRICKS_SQL_WAREHOUSE_ID not set"

/-- `run_sql_query` (server lines 30-61): check the warehouse id, submit, poll,
translate; any raised exception is re-raised as
`RuntimeError("SQL query failed: ...")`.  The outer `Option` is divergence of
the polling loop; `Except.error` is the error raised to the caller. -/
def run_sql_query (env : String → Option String) (o : DbOracle) (fuel : ℕ) :
    Option (Except String (List (List (String × Value)))) :=
  if strFalsy (env dbWarehouseVar) = true then
    some (Except.error ("SQL query failed: " ++ "DATABRICKS_SQL_WAREHOUSE_ID not set"))
  else
    match poll_results o fuel with
    | none => none
    | some (Except.error e) => some (Except.error ("SQL query failed: " ++ e))
    | some (Except.ok results) => some (Except.ok (dbTranslate o.schema results))

/-! ### `run_snowflake_query` (server lines 63-108) -/

/-- The Snowflake engine oracle: outcome of `run_query_sync`'s cursor work,
either a raised error or the cursor's (column names, fetched rows). -/
structure SfOracle where
  exec : Except String (List String × List (List Value))

/-- Result of one invocation, with the connection lifecycle made explicit. -/
structure SfRun where
  result : Except String (List (List (String × Value)))
  connOpened : Bool
  connClosed : Bool

def snowflakeVars : List String :=
  ["SNOWFLAKE_ACCOUNT", "SNOWFLAKE_USER", "SNOWFLAKE_PASSWORD",
   "SNOWFLAKE_DATABASE", "SNOWFLAKE_SCHEMA", "SNOWFLAKE_WAREHOUSE"]

def sfCfgErrMsg : String :=
  "Snowflake query failed: Missing one or more Snowflake environment variables."

/-- `run_snowflake_query`: gather the six variables and raise
`ValueError("Missing one or more Snowflake environment variables.")` if any is
falsy; otherwise connect, run `run_query_sync` in an executor, then
`conn.close()` and return.  `conn.close()` is executed only after a successful
executor call: the `except` clause re-raises without closing (no
`try/finally`), which this embedding reproduces.  The `connect` call itself is
modelled as succeeding. -/
def run_snowflake_query (env : String → Option String) (o : SfOracle) : SfRun :=
  if snowflakeVars.any (fun k => strFalsy (env k)) = true then
    { result := Except.error sfCfgErrMsg, connOpened := false, connClosed := false }
  else
    match o.exec with
    | Except.error e =>
      { result := Except.error ("Snowflake query failed: " ++ e),
        connOpened := true, connClosed := false }
    | Except.ok (cols, rows) =>
      { result := Except.ok (run_query_sync cols rows),
        connOpened := true, connClosed := true }

/-! ### Concrete instances used by witnesses and counterexamples -/

def exDbOracle : DbOracle :=
  { states := fun _ => "FAILED", errorDetail := "boom", data := none, schema := none }

def exStates : ℕ → String :=
  fun i => if i < 2 then "RUNNING" else "SUCCEEDED"

def exEnvOk : String → Option String := fun _ => some "x"

def envAllSet : String → Option String := fun _ => some "set"

def envMissingAccount : String → Option String :=
  fun k => if k = "SNOWFLAKE_ACCOUNT" then none else some "set"

def sfFailOracle : SfOracle := ⟨Except.error "execution failed"⟩

/-! ## Lemmas about `insertKV`, `dictZip`, `lookupKV` -/

theorem lookupKV_insertKV (m : List (String × Value)) (k k2 : String) (v : Value) :
    lookupKV k (insertKV m k2 v) = if k2 = k then some v else lookupKV k m := by
  induction m with
  | nil => simp [insertKV, lookupKV]
  | cons p t ih =>
    simp only [insertKV, lookupKV]
    by_cases h1 : p.1 = k2
    · by_cases h2 : k2 = k
      · simp [lookupKV, h1, h2, h1.trans h2]
      · have h3 : ¬ p.1 = k := fun e => h2 (h1 ▸ e)
        simp [lookupKV, h1, h2, h3]
    · by_cases h2 : p.1 = k
      · have h3 : ¬ k2 = k := fun e => h1 (h2.trans e.symm)
        have h4 : ¬ k = k2 := fun e => h1 (h2.trans e)
        simp [lookupKV, h1, h2, h3, h4]
      · simp [lookupKV, h1, h2, ih]

theorem map_fst_insertKV (m : List (String × Value)) (k : String) (v : Value) :
    (insertKV m k v).map Prod.fst =
      if k ∈ m.map Prod.fst then m.map Prod.fst else m.map Prod.fst ++ [k] := by
  induction m with
  | nil => simp [insertKV]
  | cons p t ih =>
    simp only [insertKV]
    by_cases h1 : p.1 = k
    · simp [h1]
    · have h2 : ¬ k = p.1 := fun e => h1 e.symm
      simp [h1, h2, ih]
      split_ifs <;> simp_all [List.mem_cons]

theorem insertKV_of_not_mem (m : List (String × Value)) (k : String) (v : Value)
    (h : k ∉ m.map Prod.fst) : insertKV m k v = m ++ [(k, v)] := by
  induction m with
  | nil => simp [insertKV]
  | cons p t ih =>
    simp only [List.map_cons, List.mem_cons] at h
    push_neg at h
    have h1 : ¬ p.1 = k := fun e => h.1 e.symm
    simp [insertKV, h1, ih h.2]

theorem mem_map_fst_insertKV (m : List (String × Value)) (k k2 : String) (v : Value) :
    k2 ∈ (insertKV m k v).map Prod.fst ↔ k2 ∈ m.map Prod.fst ∨ k2 = k := by
  rw [map_fst_insertKV]
  split_ifs with h
  · constructor
    · exact fun h2 => Or.inl h2
    · rintro (h2 | h2)
      · exact h2
      · exact h2 ▸ h
  · simp [or_comm]

theorem nodup_map_fst_insertKV (m : List (String × Value)) (k : String) (v : Value)
    (h : (m.map Prod.fst).Nodup) : ((insertKV m k v).map Prod.fst).Nodup := by
  rw [map_fst_insertKV]
  split_ifs with h1
  · exact h
  · rw [List.nodup_append]
    exact ⟨h, List.nodup_singleton _,
      fun x hx hxk => h1 ((List.mem_singleton.mp hxk) ▸ hx)⟩

theorem mem_map_fst_foldl (l : List (String × Value)) :
    ∀ (m : List (String × Value)) (k : String),
      (k ∈ (l.foldl (fun acc p => insertKV acc p.1 p.2) m).map Prod.fst) ↔
        k ∈ m.map Prod.fst ∨ k ∈ l.map Prod.fst := by
  induction l with
  | nil => simp
  | cons p t ih =>
    intro m k
    simp only [List.foldl_cons, ih, mem_map_fst_insertKV, List.map_cons, List.mem_cons]
    tauto

theorem nodup_map_fst_foldl (l : List (String × Value)) :
    ∀ m : List (String × Value), (m.map Prod.fst).Nodup →
      ((l.foldl (fun acc p => insertKV acc p.1 p.2) m).map Prod.fst).Nodup := by
  induction l with
  | nil => exact fun m h => h
  | cons p t ih =>
    intro m h
    exact ih _ (nodup_map_fst_insertKV m p.1 p.2 h)

theorem foldl_insertKV_of_nodup (l : List (String × Value)) :
    ∀ m : List (String × Value), (l.map Prod.fst).Nodup →
      (∀ p ∈ l, p.1 ∉ m.map Prod.fst) →
      l.foldl (fun acc p => insertKV acc p.1 p.2) m = m ++ l := by
  induction l with
  | nil => simp
  | cons p t ih =>
    intro m hnd hdisj
    simp only [List.map_cons, List.nodup_cons] at hnd
    have hstep : insertKV m p.1 p.2 = m ++ [p] := by
      rw [insertKV_of_not_mem m p.1 p.2 (hdisj p (List.mem_cons_self p t))]
    simp only [List.foldl_cons, hstep]
    rw [ih (m ++ [p]) hnd.2]
    · simp
    · intro q hq
      simp only [List.map_append, List.mem_append, List.map_cons]
      rintro (h | h)
      · exact hdisj q (List.mem_cons_of_mem p hq) h
      · simp only [List.map_cons, List.map_nil, List.mem_singleton] at h
        exact hnd.1 (h ▸ List.mem_map_of_mem Prod.fst hq)

/-- With pairwise-distinct column names and a row of matching width,
`dict(zip(columns, row))` is exactly the positional zip. -/
theorem dictZip_eq_zip (cols : List String) (row : List Value)
    (hnd : cols.Nodup) (hlen : row.length = cols.length) :
    dictZip cols row = List.zip cols row := by
  have hfst : (List.zip cols row).map Prod.fst = cols :=
    List.map_fst_zip cols row (le_of_eq hlen.symm)
  have := foldl_insertKV_of_nodup (List.zip cols row) []
    (by rw [hfst]; exact hnd) (by simp)
  simpa [dictZip] using this

theorem lookupKV_append (a b : List (String × Value)) (k : String) :
    lookupKV k (a ++ b) =
      match lookupKV k a with
      | some v => some v
      | none => lookupKV k b := by
  induction a with
  | nil => simp [lookupKV]
  | cons p t ih =>
    simp only [List.cons_append, lookupKV]
    split_ifs <;> simp [ih]

theorem lookupKV_foldl (l : List (String × Value)) :
    ∀ (m : List (String × Value)) (k : String),
      lookupKV k (l.foldl (fun acc p => insertKV acc p.1 p.2) m) =
        match lookupKV k l.reverse with
        | some v => some v
        | none => lookupKV k m := by
  induction l with
  | nil => simp [lookupKV]
  | cons p t ih =>
    intro m k
    simp only [List.foldl_cons, List.reverse_cons, ih, lookupKV_append,
      lookupKV_insertKV]
    by_cases h1 : p.1 = k <;>
      cases hres : lookupKV k t.reverse <;> simp [lookupKV, h1, hres]

/-- Looking a key up in `dict(zip(columns, row))` finds the value paired with
the LAST occurrence of that key: later positional pairs overwrite earlier
ones. -/
theorem lookupKV_dictZip (cols : List String) (row : List Value) (k : String) :
    lookupKV k (dictZip cols row) = lookupKV k (List.zip cols row).reverse := by
  have := lookupKV_foldl (List.zip cols row) [] k
  simp only [dictZip]
  rw [this]
  cases hres : lookupKV k (List.zip cols row).reverse <;> simp [lookupKV, hres]

/-- The number of entries of `dict(zip(columns, row))` is the number of
distinct column names consumed (`dedup` length), for a row of matching
width. -/
theorem dictZip_length (cols : List String) (row : List Value)
    (hlen : row.length = cols.length) :
    (dictZip cols row).length = cols.dedup.length := by
  have hfst : (List.zip cols row).map Prod.fst = cols :=
    List.map_fst_zip cols row (le_of_eq hlen.symm)
  have hnd : ((dictZip cols row).map Prod.fst).Nodup :=
    nodup_map_fst_foldl (List.zip cols row) [] (by simp)
  have hmem : ∀ k, k ∈ (dictZip cols row).map Prod.fst ↔ k ∈ cols := by
    intro k
    have := mem_map_fst_foldl (List.zip cols row) [] k
    simpa [dictZip, hfst] using this
  have h1 : (dictZip cols row).length = ((dictZip cols row).map Prod.fst).length :=
    (List.length_map _ _).symm
  have h2 : ((dictZip cols row).map Prod.fst).length =
      ((dictZip cols row).map Prod.fst).dedup.length := by
    rw [List.dedup_eq_self.mpr hnd]
  have h3 : ((dictZip cols row).map Prod.fst).toFinset = cols.toFinset := by
    ext k
    simp only [List.mem_toFinset]
    exact hmem k
  calc (dictZip cols row).length
      = ((dictZip cols row).map Prod.fst).dedup.length := h1.trans h2
    _ = ((dictZip cols row).map Prod.fst).toFinset.card := (List.card_toFinset _).symm
    _ = cols.toFinset.card := by rw [h3]
    _ = cols.dedup.length := List.card_toFinset _

theorem dedup_length_lt_of_not_nodup (cols : List String) (hdup : ¬ cols.Nodup) :
    cols.dedup.length < cols.length := by
  rcases lt_or_eq_of_le (List.Sublist.length_le cols.dedup_sublist) with h | h
  · exact h
  · exact absurd (List.dedup_eq_self.mp (List.Sublist.eq_of_length cols.dedup_sublist h))
      hdup

/-! ## Lemmas about the polling loop -/

theorem pollFind_inactive (st : ℕ → String) :
    ∀ fuel i n, pollFind st fuel i = some n → pollActive (st n) = false := by
  intro fuel
  induction fuel with
  | zero =>
    intro i n h
    simp only [pollFind] at h
    by_cases ha : pollActive (st i)
    · simp [ha] at h
    · simp [ha] at h
      exact h ▸ (Bool.not_eq_true _).mp ha
  | succ f ih =>
    intro i n h
    simp only [pollFind] at h
    by_cases ha : pollActive (st i)
    · exact ih (i + 1) n (by simpa [ha] using h)
    · simp [ha] at h
      exact h ▸ (Bool.not_eq_true _).mp ha

theorem pollFind_eq (st : ℕ → String) :
    ∀ n i, (∀ m, m < n → pollActive (st (i + m)) = true) →
      pollActive (st (i + n)) = false →
      ∀ fuel, n ≤ fuel → pollFind st fuel i = some (i + n) := by
  intro n
  induction n with
  | zero =>
    intro i _ hterm fuel _
    simp only [Nat.add_zero] at hterm
    cases fuel <;> simp [pollFind, hterm]
  | succ k ih =>
    intro i hact hterm fuel hfuel
    rcases Nat.exists_eq_add_of_le hfuel with ⟨d, hd⟩
    subst hd
    have h0 : pollActive (st i) = true := by
      have := hact 0 (Nat.succ_pos k)
      simpa using this
    have harg : ∀ m, m < k → pollActive (st (i + 1 + m)) = true := by
      intro m hm
      have := hact (m + 1) (by omega)
      simpa [Nat.add_assoc, Nat.add_comm 1 m] using this
    have hterm2 : pollActive (st (i + 1 + k)) = false := by
      have : i + 1 + k = i + (k + 1) := by omega
      rw [this]; exact hterm
    have := ih (i + 1) harg hterm2 (k + d) (Nat.le_add_right k d)
    have hres : i + 1 + k = i + (k + 1) := by omega
    simp only [Nat.succ_add, pollFind, h0, if_pos]
    rw [this, hres]

theorem pollWaits_eq (st : ℕ → String) :
    ∀ n i, (∀ m, m < n → pollActive (st (i + m)) = true) →
      pollActive (st (i + n)) = false →
      ∀ fuel, n ≤ fuel → pollWaits st fuel i = List.replicate n 2 := by
  intro n
  induction n with
  | zero =>
    intro i _ hterm fuel _
    simp only [Nat.add_zero] at hterm
    cases fuel <;> simp [pollWaits, hterm]
  | succ k ih =>
    intro i hact hterm fuel hfuel
    rcases Nat.exists_eq_add_of_le hfuel with ⟨d, hd⟩
    subst hd
    have h0 : pollActive (st i) = true := by
      have := hact 0 (Nat.succ_pos k)
      simpa using this
    have harg : ∀ m, m < k → pollActive (st (i + 1 + m)) = true := by
      intro m hm
      have := hact (m + 1) (by omega)
      simpa [Nat.add_assoc, Nat.add_comm 1 m] using this
    have hterm2 : pollActive (st (i + 1 + k)) = false := by
      have : i + 1 + k = i + (k + 1) := by omega
      rw [this]; exact hterm
    have := ih (i + 1) harg hterm2 (k + d) (Nat.le_add_right k d)
    simp only [Nat.succ_add, pollWaits, h0, if_pos, this, List.replicate_succ]

/-! ## Lemmas about characters, stripping, and the direct-SQL regex -/

theorem mem_of_dropWhile {p : Char → Bool} {a : Char} :
    ∀ l : List Char, a ∈ l.dropWhile p → a ∈ l := by
  intro l
  induction l with
  | nil => simp
  | cons c cs ih =>
    by_cases h : p c
    · intro hm
      simp only [List.dropWhile_cons, h, if_true] at hm
      exact List.mem_cons_of_mem c (ih hm)
    · intro hm
      simpa [List.dropWhile_cons, h] using hm

theorem mem_stripWs {a : Char} {l : List Char} (h : a ∈ stripWs l) : a ∈ l := by
  simp only [stripWs, List.mem_reverse] at h
  exact mem_of_dropWhile l (List.mem_reverse.mp (mem_of_dropWhile _ h))

theorem pyLower_nl (c : Char) (h : pyLower c = '\n') : c = '\n' := by
  unfold pyLower at h
  split at h <;> first | exact h | exact absurd h (by decide)

theorem nl_not_mem_stripWs_map (input : List Char) (hnl : '\n' ∉ input) :
    '\n' ∉ stripWs (input.map pyLower) := by
  intro h
  rcases List.mem_map.mp (mem_stripWs h) with ⟨c, hc, he⟩
  exact hnl ((pyLower_nl c he) ▸ hc)

theorem takeWhile_nonNl (l : List Char) (hnl : '\n' ∉ l) :
    l.takeWhile (fun c => !(c == '\n')) = l := by
  induction l with
  | nil => rfl
  | cons c cs ih =>
    have h1 : ¬ c = '\n' := fun e => hnl (e ▸ List.mem_cons_self c cs)
    have h2 : '\n' ∉ cs := fun h => hnl (List.mem_cons_of_mem c h)
    simp [List.takeWhile_cons, h1, ih h2]

theorem dropWhile_dropWhile (p : Char → Bool) (l : List Char) :
    (l.dropWhile p).dropWhile p = l.dropWhile p := by
  induction l with
  | nil => rfl
  | cons c cs ih =>
    by_cases h : p c
    · simp [List.dropWhile_cons, h, ih]
    · simp [List.dropWhile_cons, h]

theorem stripWs_dropWhile (l : List Char) :
    stripWs (l.dropWhile pySpace) = stripWs l := by
  simp only [stripWs, dropWhile_dropWhile]

theorem stripWs_of_dropWhile_nil (l : List Char) (h : l.dropWhile pySpace = []) :
    stripWs l = [] := by
  simp [stripWs, h]

theorem all_of_dropWhile_nil {p : Char → Bool} :
    ∀ l : List Char, l.dropWhile p = [] → ∀ a ∈ l, p a = true := by
  intro l
  induction l with
  | nil => simp
  | cons c cs ih =>
    intro h a ha
    by_cases hc : p c
    · simp only [List.dropWhile_cons, hc, if_true] at h
      rcases List.mem_cons.mp ha with rfl | ha2
      · exact hc
      · exact ih h a ha2
    · simp [List.dropWhile_cons, hc] at h

theorem dropLit_sub : ∀ (lit l t : List Char), dropLit lit l = some t →
    ∀ a ∈ t, a ∈ l := by
  intro lit
  induction lit with
  | nil =>
    intro l t h a ha
    simp only [dropLit, Option.some_inj] at h
    exact h ▸ ha
  | cons p ps ih =>
    intro l t h a ha
    cases l with
    | nil => simp [dropLit] at h
    | cons c cs =>
      simp only [dropLit] at h
      by_cases he : p = c
      · simp only [he, if_true] at h
        exact List.mem_cons_of_mem c (ih cs t h a ha)
      · simp [he] at h


theorem lastNonNl_spec : ∀ l : List Char, l ≠ [] → '\n' ∉ l →
    ∃ c, lastNonNl l = some c ∧ c ∈ l := by
  intro l
  induction l with
  | nil => intro h; exact absurd rfl h
  | cons c cs ih =>
    intro _ hnl
    cases cs with
    | nil =>
      have h1 : (c == '\n') = false := by
        have : ¬ c = '\n' := fun e => hnl (e ▸ List.mem_cons_self c [])
        simpa using this
      refine ⟨c, ?_, List.mem_cons_self c []⟩
      have hstep : lastNonNl [c] =
          (match lastNonNl ([] : List Char) with
           | some d => some d
           | none => if c == '\n' then none else some c) := rfl
      rw [hstep]
      simp [lastNonNl, h1]
    | cons d t =>
      have h2 : '\n' ∉ d :: t := fun h => hnl (List.mem_cons_of_mem c h)
      rcases ih (by simp) h2 with ⟨e, he, hmem⟩
      refine ⟨e, ?_, List.mem_cons_of_mem c hmem⟩
      have hstep : lastNonNl (c :: d :: t) =
          (match lastNonNl (d :: t) with
           | some q => some q
           | none => if c == '\n' then none else some c) := rfl
      rw [hstep, he]

theorem searchWith_cons (m : List Char → Option (List Char)) (c : Char) (cs : List Char) :
    searchWith m (c :: cs) =
      match m (c :: cs) with
      | some r => some r
      | none => searchWith m cs := rfl

theorem matchRunSqlAt_eq (l : List Char) :
    matchRunSqlAt l =
      match dropLit runSqlLit l with
      | none => none
      | some t =>
        if t.takeWhile pySpace = [] then none
        else if t.dropWhile pySpace = [] then backtrackWs (t.takeWhile pySpace)
        else some ((t.dropWhile pySpace).takeWhile (fun ch => !(ch == '\n'))) := rfl

theorem firstRunSqlTail_cons (c : Char) (cs : List Char) :
    firstRunSqlTail (c :: cs) =
      match dropLit runSqlLit (c :: cs) with
      | some (w :: x :: t) =>
        if pySpace w then some (w :: x :: t) else firstRunSqlTail cs
      | _ => firstRunSqlTail cs := rfl

/-- The query the code extracts (group 1 of `run sql query\s+(.+)`, leftmost
match, then `strip()`) coincides, on newline-free text, with the stripped text
following the first occurrence of "run sql query" that is followed by a
whitespace character and one more character. -/
theorem searchRunSql_spec : ∀ l : List Char, '\n' ∉ l →
    (searchWith matchRunSqlAt l).map stripWs = (firstRunSqlTail l).map stripWs := by
  intro l
  induction l with
  | nil => intro _; rfl
  | cons c cs ih =>
    intro hnl
    have hnl2 : '\n' ∉ cs := fun h => hnl (List.mem_cons_of_mem c h)
    rw [searchWith_cons, matchRunSqlAt_eq, firstRunSqlTail_cons]
    rcases hdrop : dropLit runSqlLit (c :: cs) with _ | t
    · exact ih hnl2
    · have hsub : ∀ a ∈ t, a ∈ c :: cs := dropLit_sub runSqlLit (c :: cs) t hdrop
      have hnlt : '\n' ∉ t := fun h => hnl (hsub _ h)
      rcases t with _ | ⟨w, t1⟩
      · simpa using ih hnl2
      · rcases t1 with _ | ⟨x, t2⟩
        · by_cases hw : pySpace w
          · have hws : (w :: ([] : List Char)).takeWhile pySpace = [w] := by
              simp [List.takeWhile_cons, hw]
            have hrest : (w :: ([] : List Char)).dropWhile pySpace = [] := by
              simp [List.dropWhile_cons, hw]
            dsimp only
            rw [hws, hrest]
            simp only [backtrackWs, lastNonNl]
            simpa using ih hnl2
          · have hws : (w :: ([] : List Char)).takeWhile pySpace = [] := by
              simp [List.takeWhile_cons, hw]
            dsimp only
            rw [hws]
            simpa using ih hnl2
        · by_cases hw : pySpace w
          · have hws : (w :: x :: t2).takeWhile pySpace = w :: (x :: t2).takeWhile pySpace := by
              simp [List.takeWhile_cons, hw]
            have hrest : (w :: x :: t2).dropWhile pySpace = (x :: t2).dropWhile pySpace := by
              simp [List.dropWhile_cons, hw]
            dsimp only
            rw [hws, hrest]
            rcases hdw : (x :: t2).dropWhile pySpace with _ | ⟨r, rs⟩
            · -- tail after the literal is all whitespace: the regex backtracks
              have hall : ∀ a ∈ w :: x :: t2, pySpace a = true := by
                intro a ha
                rcases List.mem_cons.mp ha with rfl | ha2
                · exact hw
                · exact all_of_dropWhile_nil (x :: t2) hdw a ha2
              have hnlx : '\n' ∉ x :: t2 := fun h => hnlt (List.mem_cons_of_mem w h)
              rcases lastNonNl_spec (x :: t2) (by simp) hnlx with ⟨e, he, hmem⟩
              have hspe : pySpace e = true := hall e (List.mem_cons_of_mem w hmem)
              have htw : (x :: t2).takeWhile pySpace = x :: t2 := by
                have hsplit := List.takeWhile_append_dropWhile (p := pySpace) (l := x :: t2)
                rw [hdw, List.append_nil] at hsplit
                exact hsplit
              rw [htw]
              simp only [if_neg (by simp : ¬ (w :: x :: t2 : List Char) = []), if_pos rfl,
                hw, if_pos rfl]
              simp only [backtrackWs, he, Option.map]
              have hleft : stripWs [e] = [] :=
                stripWs_of_dropWhile_nil [e] (by simp [List.dropWhile_cons, hspe])
              have hright : stripWs (w :: x :: t2) = [] :=
                stripWs_of_dropWhile_nil _
                  (by rw [List.dropWhile_cons]; simp only [hw, if_true]; exact hdw)
              simp [hleft, hright]
            · -- a genuine query follows: group is the rest of the line
              have hnlr : '\n' ∉ r :: rs := by
                rw [← hdw]
                intro h
                exact hnlt (List.mem_cons_of_mem w (mem_of_dropWhile _ h))
              have htk : (r :: rs).takeWhile (fun ch => !(ch == '\n')) = r :: rs :=
                takeWhile_nonNl _ hnlr
              rw [htk]
              simp only [if_neg (by simp : ¬ (w :: (x :: t2).takeWhile pySpace : List Char) = []),
                if_neg (by simp : ¬ (r :: rs : List Char) = []), hw, if_pos rfl]
              simp only [Option.map]
              have : stripWs (r :: rs) = stripWs (w :: x :: t2) := by
                rw [← hdw, ← hrest, stripWs_dropWhile]
              simp [this]
          · have hws : (w :: x :: t2).takeWhile pySpace = [] := by
              simp [List.takeWhile_cons, hw]
            dsimp only
            rw [hws]
            simp only [if_pos rfl, hw, if_false]
            exact ih hnl2

/-! ## Claim theorems -/

/-- Claim C1: for every statement handle, the poller waits a fixed 2-second
interval and then refreshes the status, repeating while the state is PENDING
or RUNNING; the loop imposes no deadline on its total duration (the 30-second
submission wait hint is advisory only), so it terminates if and only if some
refresh eventually yields a state outside PENDING/RUNNING.  Part 1: the loop
terminates (for some fuel) iff some status in the handle's refresh sequence is
inactive.  Part 2: if `n` is the first inactive index, the loop stops there
after exactly `n` sleeps of 2 seconds each.  Part 3: for every bound `T`
there is a handle on which the loop terminates only after more than `T`
seconds — no deadline is enforced. -/
theorem claim_C1 (st : ℕ → String) :
    ((∃ fuel n, pollFind st fuel 0 = some n) ↔ ∃ n, pollActive (st n) = false) ∧
    (∀ n, (∀ m, m < n → pollActive (st m) = true) → pollActive (st n) = false →
      ∀ fuel, n ≤ fuel →
        pollFind st fuel 0 = some n ∧ pollWaits st fuel 0 = List.replicate n 2) ∧
    (∀ T : ℕ, ∃ st2 : ℕ → String, ∃ n, pollFind st2 n 0 = some n ∧ T < 2 * n) := by
  refine ⟨⟨?_, ?_⟩, ?_, ?_⟩
  · rintro ⟨fuel, n, h⟩
    exact ⟨n, pollFind_inactive st fuel 0 n h⟩
  · rintro ⟨n, hn⟩
    have hex : ∃ k, pollActive (st k) = false := ⟨n, hn⟩
    have hk : pollActive (st (Nat.find hex)) = false := Nat.find_spec hex
    have hmin : ∀ m, m < Nat.find hex → pollActive (st m) = true := by
      intro m hm
      cases hb : pollActive (st m)
      · exact absurd hb (Nat.find_min hex hm)
      · rfl
    refine ⟨Nat.find hex, 0 + Nat.find hex, ?_⟩
    exact pollFind_eq st (Nat.find hex) 0
      (by intro m hm; rw [Nat.zero_add]; exact hmin m hm)
      (by rw [Nat.zero_add]; exact hk) (Nat.find hex) le_rfl
  · intro n hact hterm fuel hfuel
    constructor
    · have h := pollFind_eq st n 0
        (by intro m hm; rw [Nat.zero_add]; exact hact m hm)
        (by rw [Nat.zero_add]; exact hterm) fuel hfuel
      simpa using h
    · exact pollWaits_eq st n 0
        (by intro m hm; rw [Nat.zero_add]; exact hact m hm)
        (by rw [Nat.zero_add]; exact hterm) fuel hfuel
  · intro T
    refine ⟨fun i => if i < T + 1 then "RUNNING" else "SUCCEEDED", T + 1, ?_, by omega⟩
    have h := pollFind_eq (fun i => if i < T + 1 then "RUNNING" else "SUCCEEDED")
      (T + 1) 0
      (by
        intro m hm
        rw [Nat.zero_add]
        simp only [hm, if_pos]
        rfl)
      (by
        rw [Nat.zero_add]
        simp only [lt_irrefl, if_neg, if_false]
        rfl)
      (T + 1) le_rfl
    simpa using h

/-- Witness for C1 at a concrete handle: two RUNNING refreshes then SUCCEEDED
terminate the loop at index 2 after two 2-second sleeps. -/
theorem claim_C1_witness :
    pollFind exStates 2 0 = some 2 ∧ pollWaits exStates 2 0 = List.replicate 2 2 :=
  (claim_C1 exStates).2.1 2
    (by intro m hm; interval_cases m <;> decide)
    (by decide) 2 le_rfl

/-- Claim C2: for every handle whose polling reaches a terminal state other
than SUCCEEDED, the tool raises an error whose message contains the engine's
reported error detail (as a suffix of the wrapped message), and no result
payload is returned. -/
theorem claim_C2 (env : String → Option String) (o : DbOracle) (fuel n : ℕ)
    (hcfg : strFalsy (env dbWarehouseVar) = false)
    (hpoll : pollFind o.states fuel 0 = some n)
    (hfail : o.states n ≠ "SUCCEEDED") :
    run_sql_query env o fuel =
      some (Except.error ("SQL query failed: " ++ ("Query failed: " ++ o.errorDetail))) ∧
    (∃ pre : String,
      "SQL query failed: " ++ ("Query failed: " ++ o.errorDetail) = pre ++ o.errorDetail) ∧
    ∀ res, run_sql_query env o fuel ≠ some (Except.ok res) := by
  have h1 : run_sql_query env o fuel =
      some (Except.error ("SQL query failed: " ++ ("Query failed: " ++ o.errorDetail))) := by
    simp only [run_sql_query, hcfg, Bool.false_eq_true, if_false, poll_results, hpoll]
    rw [if_neg hfail]
  refine ⟨h1, ⟨"SQL query failed: " ++ "Query failed: ",
    (String.append_assoc _ _ _).symm⟩, ?_⟩
  intro res h
  rw [h1] at h
  simp at h

/-- Witness for C2: a handle that is FAILED on the initial status check, with
error detail "boom". -/
theorem claim_C2_witness :
    run_sql_query exEnvOk exDbOracle 0 =
      some (Except.error "SQL query failed: Query failed: boom") := by
  have h := (claim_C2 exEnvOk exDbOracle 0 0 rfl rfl (by decide)).1
  rw [h]
  rfl

/-- Counterexample to C3 as stated: in the primary-engine tool, a present
schema object with an empty field list and a non-empty row list yields one
empty mapping per row, not the empty sequence. -/
theorem claim_C3_counterexample :
    dbTranslate (some []) [[Value.null]] = [[]] ∧
    ([[]] : List (List (String × Value))) ≠ [] :=
  ⟨rfl, by simp⟩

/-- Claim C3, amended: on empty rows both translators return the empty
sequence, and neither fails.  On empty columns the secondary-engine translator
returns the empty sequence; the primary-engine translator returns the empty
sequence when the schema object is absent, but when the schema is present
with zero fields it returns one empty mapping per (non-empty) row. -/
theorem claim_C3_amended :
    (∀ schema : Option (List String), dbTranslate schema [] = []) ∧
    (∀ columns : List String, run_query_sync columns [] = []) ∧
    (∀ rows : List (List Value), run_query_sync [] rows = []) ∧
    (∀ rows : List (List Value), dbTranslate none rows = []) ∧
    (∀ rows : List (List Value), dbTranslate (some []) rows = rows.map (fun _ => [])) := by
  refine ⟨?_, ?_, ?_, ?_, ?_⟩
  · rintro (_ | cols) <;> rfl
  · intro columns
    cases columns <;> simp [run_query_sync]
  · intro rows
    simp [run_query_sync]
  · intro rows
    cases rows <;> rfl
  · intro rows
    have hz : ∀ row : List Value, dictZip [] row = [] := fun _ => rfl
    cases rows with
    | nil => rfl
    | cons r rs => simp [dbTranslate, hz]

/-- Counterexample to C4 as stated: with duplicated column names the mapping
has fewer keys than there are columns. -/
theorem claim_C4_counterexample :
    (run_query_sync ["a", "a"] [[Value.num 1, Value.num 2]]).map List.length ≠
      [(["a", "a"] : List String).length] := by
  decide

/-- Claim C4, amended: provided the column names are pairwise distinct (and,
for the secondary-engine translator, non-empty — it returns the empty
sequence when `columns` is empty regardless of the rows), the output of both
translators has exactly one mapping per input row, each mapping is exactly
the positional zip of column names with that row's cells, hence has exactly
`len(columns)` keys pairing names with values positionally. -/
theorem claim_C4_amended (cols : List String) (rows : List (List Value))
    (hne : cols ≠ []) (hnd : cols.Nodup)
    (hlen : ∀ r ∈ rows, r.length = cols.length) :
    run_query_sync cols rows = rows.map (fun r => List.zip cols r) ∧
    dbTranslate (some cols) rows = rows.map (fun r => List.zip cols r) ∧
    (run_query_sync cols rows).length = rows.length ∧
    (dbTranslate (some cols) rows).length = rows.length ∧
    ∀ r ∈ rows, (List.zip cols r).length = cols.length ∧
      (List.zip cols r).map Prod.fst = cols := by
  have hz : ∀ r ∈ rows, dictZip cols r = List.zip cols r := fun r hr =>
    dictZip_eq_zip cols r hnd (hlen r hr)
  have h1 : run_query_sync cols rows = rows.map (fun r => List.zip cols r) := by
    simp only [run_query_sync, if_pos hne]
    exact List.map_congr_left hz
  have h2 : dbTranslate (some cols) rows = rows.map (fun r => List.zip cols r) := by
    cases rows with
    | nil => rfl
    | cons r rs =>
      show (r :: rs).map (fun row => dictZip cols row) = _
      exact List.map_congr_left hz
  refine ⟨h1, h2, by rw [h1, List.length_map], by rw [h2, List.length_map], ?_⟩
  intro r hr
  constructor
  · rw [List.length_zip, hlen r hr, min_self]
  · exact List.map_fst_zip cols r (le_of_eq (hlen r hr).symm)

/-- Witness for C4 at distinct columns ["a", "b"] and one row. -/
theorem claim_C4_witness :
    run_query_sync ["a", "b"] [[Value.num 1, Value.num 2]] =
      [[("a", Value.num 1), ("b", Value.num 2)]] := by
  have h := (claim_C4_amended ["a", "b"] [[Value.num 1, Value.num 2]]
    (by decide) (by decide) (by decide)).1
  rw [h]
  rfl

/-- Claim C10: when column names are duplicated, both translators still map
each row through `dict(zip(...))`, each resulting mapping has strictly fewer
keys than there are columns, and looking up any name yields the cell of the
LAST column bearing it (lookup in the reversed positional zip): later
positional pairs overwrite earlier ones. -/
theorem claim_C10 (cols : List String) (rows : List (List Value))
    (hdup : ¬ cols.Nodup) (hlen : ∀ r ∈ rows, r.length = cols.length) :
    run_query_sync cols rows = rows.map (fun r => dictZip cols r) ∧
    dbTranslate (some cols) rows = rows.map (fun r => dictZip cols r) ∧
    ∀ r ∈ rows, (dictZip cols r).length < cols.length ∧
      ∀ k, lookupKV k (dictZip cols r) = lookupKV k (List.zip cols r).reverse := by
  have hne : cols ≠ [] := by rintro rfl; exact hdup List.nodup_nil
  refine ⟨by simp only [run_query_sync, if_pos hne], ?_, ?_⟩
  · cases rows <;> rfl
  · intro r hr
    refine ⟨?_, fun k => lookupKV_dictZip cols r k⟩
    rw [dictZip_length cols r (hlen r hr)]
    exact dedup_length_lt_of_not_nodup cols hdup

/-- Witness for C10 at columns ["a", "a"]: one key, holding the second cell. -/
theorem claim_C10_witness :
    (dictZip ["a", "a"] [Value.num 1, Value.num 2]).length < 2 ∧
    lookupKV "a" (dictZip ["a", "a"] [Value.num 1, Value.num 2]) = some (Value.num 2) := by
  have h := (claim_C10 ["a", "a"] [[Value.num 1, Value.num 2]] (by decide)
    (by decide)).2.2 [Value.num 1, Value.num 2] (by simp)
  refine ⟨h.1, ?_⟩
  rw [h.2 "a"]
  rfl

attribute [local semireducible] Rat.add Rat.mul Rat.sub Rat.inv Rat.ofScientific in
/-- Claim C5, evaluated at the spec's own example: the code extracts
vehicle "truck" and distance 12.0, but toll_rate 12.0 — not 0.30 — because
the rate pattern's slash is optional and "miles" contains "mile", so
`re.search` first matches "12 miles".  This contradicts the claimed
extraction toll_rate = 0.30. -/
theorem claim_C5_eval :
    process_command (fun s => s) ("Calculate toll for truck, 12 miles, $0.30/mile".toList)
      = Outcome.callToll ("truck".toList) 12 12 ∧ (12 : ℚ) ≠ 0.30 := by
  decide

/-- Claim C6, evaluated at a failing query with all credentials present: the
connection is opened but `conn.close()` is never reached, because the raise
path has no `finally`; the claim says the connection is closed regardless of
outcome. -/
theorem claim_C6_eval :
    (run_snowflake_query envAllSet sfFailOracle).connOpened = true ∧
    (run_snowflake_query envAllSet sfFailOracle).connClosed = false ∧
    (run_snowflake_query envAllSet sfFailOracle).result =
      Except.error "Snowflake query failed: execution failed" :=
  ⟨rfl, rfl, rfl⟩

/-- Counterexample to C7 as stated: with SNOWFLAKE_ACCOUNT missing, the
secondary-engine tool's configuration error does not name the missing
variable. -/
theorem claim_C7_counterexample :
    (run_snowflake_query envMissingAccount ⟨Except.ok ([], [])⟩).result =
      Except.error sfCfgErrMsg ∧
    hasSub ("SNOWFLAKE_ACCOUNT".toList) (sfCfgErrMsg.toList) = false :=
  ⟨rfl, by decide⟩

/-- Claim C7, amended: both tools fail fast on a missing required variable,
before consulting the engine (the result is independent of the engine oracle,
and for the secondary engine the connection is never opened).  The primary
tool's message names DATABRICKS_SQL_WAREHOUSE_ID; the secondary tool's
message is the fixed text "Missing one or more Snowflake environment
variables." and does not name the missing variable. -/
theorem claim_C7_amended :
    (∀ (env : String → Option String) (o o2 : DbOracle) (fuel fuel2 : ℕ),
      strFalsy (env dbWarehouseVar) = true →
      run_sql_query env o fuel = some (Except.error dbCfgErrMsg) ∧
      run_sql_query env o fuel = run_sql_query env o2 fuel2) ∧
    hasSub (dbWarehouseVar.toList) (dbCfgErrMsg.toList) = true ∧
    (∀ (env : String → Option String) (o o2 : SfOracle),
      snowflakeVars.any (fun k => strFalsy (env k)) = true →
      run_snowflake_query env o = run_snowflake_query env o2 ∧
      (run_snowflake_query env o).result = Except.error sfCfgErrMsg ∧
      (run_snowflake_query env o).connOpened = false) := by
  refine ⟨?_, by decide, ?_⟩
  · intro env o o2 fuel fuel2 h
    have h1 : ∀ (o3 : DbOracle) (f : ℕ),
        run_sql_query env o3 f = some (Except.error dbCfgErrMsg) := by
      intro o3 f
      simp only [run_sql_query, h, if_true]
      rfl
    exact ⟨h1 o fuel, (h1 o fuel).trans (h1 o2 fuel2).symm⟩
  · intro env o o2 h
    have h1 : ∀ o3 : SfOracle, run_snowflake_query env o3 =
        { result := Except.error sfCfgErrMsg, connOpened := false,
          connClosed := false } := by
      intro o3
      simp only [run_snowflake_query, h, if_true]
    exact ⟨(h1 o).trans (h1 o2).symm, by rw [h1 o], by rw [h1 o]⟩

/-- Witness for C7 with every variable unset. -/
theorem claim_C7_witness :
    run_sql_query (fun _ => none) exDbOracle 3 = some (Except.error dbCfgErrMsg) ∧
    (run_snowflake_query (fun _ => none) sfFailOracle).connOpened = false :=
  ⟨(claim_C7_amended.1 (fun _ => none) exDbOracle exDbOracle 3 3 rfl).1,
    (claim_C7_amended.2.2 (fun _ => none) sfFailOracle sfFailOracle rfl).2.2⟩

attribute [local semireducible] Rat.add Rat.mul Rat.sub Rat.inv Rat.ofScientific in
/-- Claim C8: `calculate_toll` rounds distance x rate x multiplier to two
decimals, with multiplier 1.0 for "car", 1.5 for "truck", 0.8 for
"motorcycle" matched case-insensitively and 1.0 otherwise; in particular the
three documented evaluations hold. -/
theorem claim_C8 :
    (∀ (v : String) (d r : ℚ),
      calculate_toll v d r = pyRound2 (d * r *
        (if pyLowerStr v = "car" then 1
         else if pyLowerStr v = "truck" then 3 / 2
         else if pyLowerStr v = "motorcycle" then 4 / 5 else 1))) ∧
    calculate_toll "car" 10 0.25 = 2.5 ∧
    calculate_toll "TRUCK" 10 0.25 = 3.75 ∧
    calculate_toll "bicycle" 10 0.25 = 2.5 := by
  refine ⟨?_, by decide, by decide, by decide⟩
  intro v d r
  simp only [calculate_toll, rates, dictGetD]

/-- Counterexample to C9 as stated: "run sql queryx" contains the trigger
substring and non-empty text follows it, yet the code answers with the
missing-query error instead of DirectSQL of the trimmed following text,
because the extraction regex demands whitespace after the literal. -/
theorem claim_C9_counterexample :
    process_command (fun s => s) ("run sql queryx".toList) = Outcome.missingQuery ∧
    hasSub runSqlLit ("run sql queryx".toList) = true ∧
    Outcome.missingQuery ≠ Outcome.directSQL ("x".toList) :=
  ⟨by decide, by decide, by decide⟩

/-- Claim C9, amended: the four rules are tested in fixed order on the
lowercased, stripped input with first match winning — "secret word" beats
everything, then "calculate toll", then "run sql query", else delegation to
the external translator whose returned text becomes the generated SQL.  For
the direct-SQL rule (on newline-free input): the query is the trimmed text
following the first occurrence of "run sql query" that is immediately
followed by a whitespace character and at least one further character; when
no such occurrence exists the outcome is the missing-query reply. -/
theorem claim_C9_amended (tr : List Char → List Char) (input cmd : List Char)
    (hc : cmd = stripWs (input.map pyLower)) (hnl : ('\n' : Char) ∉ input) :
    (hasSub secretLit cmd = true → process_command tr input = Outcome.secretWord) ∧
    (hasSub secretLit cmd = false → hasSub tollLit cmd = true →
      process_command tr input =
        Outcome.callToll (tollVehicle cmd) (tollDistance cmd) (tollRate cmd)) ∧
    (hasSub secretLit cmd = false → hasSub tollLit cmd = false →
      hasSub runSqlLit cmd = true →
      process_command tr input =
        (match firstRunSqlTail cmd with
         | some t => Outcome.directSQL (stripWs t)
         | none => Outcome.missingQuery)) ∧
    (hasSub secretLit cmd = false → hasSub tollLit cmd = false →
      hasSub runSqlLit cmd = false →
      process_command tr input = Outcome.genSQL (tr cmd)) := by
  subst hc
  refine ⟨?_, ?_, ?_, ?_⟩
  · intro h1
    simp only [process_command, h1, if_true]
  · intro h1 h2
    simp only [process_command, h1, h2, if_true, Bool.false_eq_true, if_false]
  · intro h1 h2 h3
    have hnlc : '\n' ∉ stripWs (input.map pyLower) := nl_not_mem_stripWs_map input hnl
    have hspec := searchRunSql_spec _ hnlc
    simp only [process_command, h1, h2, h3, if_true, Bool.false_eq_true, if_false]
    rcases hf : firstRunSqlTail (stripWs (input.map pyLower)) with _ | t
    · rcases hs : searchWith matchRunSqlAt (stripWs (input.map pyLower)) with _ | g
      · rfl
      · rw [hs, hf] at hspec
        simp [Option.map] at hspec
    · rcases hs : searchWith matchRunSqlAt (stripWs (input.map pyLower)) with _ | g
      · rw [hs, hf] at hspec
        simp [Option.map] at hspec
      · rw [hs, hf] at hspec
        simp only [Option.map, Option.some_inj] at hspec
        simp [hspec]
  · intro h1 h2 h3
    simp only [process_command, h1, h2, h3, Bool.false_eq_true, if_false]

/-- Witness for C9: a plain direct-SQL command. -/
theorem claim_C9_witness :
    process_command (fun s => s) ("run sql query select 1".toList) =
      Outcome.directSQL ("select 1".toList) := by
  have h := (claim_C9_amended (fun s => s) ("run sql query select 1".toList)
      (stripWs (("run sql query select 1".toList).map pyLower)) rfl (by decide)).2.2.1
    (by decide) (by decide) (by decide)
  rw [h]
  decide
